import Mathlib

/-!
Verification of the xcaddy build-environment orchestration logic.

This file gives a shallow embedding, in Lean 4, of the core functions of the
`caddyserver/xcaddy` repository:

* the argument splitter `splitWith` (cmd/main.go),
* the import-path normalizer `normalizeImportPath` (cmd/main.go), together
  with the relevant parts of Go's `path` and `path/filepath` standard
  libraries (`path.Clean`, `path.Join`, `filepath.ToSlash`,
  `strings.TrimPrefix`) that it calls,
* the semantic-import-versioning helper `versionedModulePath` (builder.go),
  together with the `Masterminds/semver/v3` function `StrictNewVersion` it
  calls,
* the build-environment setup `Builder.newEnvironment` and the process runner
  `environment.runCommand` (environment.go), modelled as executable functions
  over an abstract "world" that decides the outcome of every external effect
  (temp-folder creation, file writes, subprocess exit codes, context
  cancellation timing).

Go strings are modelled as Lean `String` (a wrapper around `List Char`);
machine integers are modelled as `Nat`/`Int` with explicit bounds where the
source's behaviour depends on a width (`strconv.ParseUint`'s 2^64 bound,
`strconv.Atoi`'s 2^63 bound, the `int(major)` cast in `versionedModulePath`).
Concurrency in `runCommand` is modelled by abstracting the race outcomes
(subprocess exit time, context-cancellation time) as explicit inputs.
-/

namespace Xcaddy

/-! ## List/string utilities mirroring Go's `strings` package -/

/-- Model of `strings.SplitN(s, sep, 2)` for a one-character separator: returns the
part before the first occurrence of `sep`, and `some` of the rest if `sep`
occurs at all (`none` models a length-1 result slice). -/
def splitN2 (sep : Char) : List Char → List Char × Option (List Char)
  | [] => ([], none)
  | c :: rest =>
    if c = sep then ([], some rest)
    else
      let (pre, post) := splitN2 sep rest
      (c :: pre, post)

/-- Model of `strings.TrimPrefix(s, pre)`: drops `pre` from the front of `s` when it
is a prefix, otherwise returns `s` unchanged. -/
def trimPre (s pre : List Char) : List Char :=
  if pre.isPrefixOf s then s.drop pre.length else s

/-- Model of `strings.HasPrefix` on the underlying character lists. -/
def strHasPre (s pre : String) : Bool :=
  pre.data.isPrefixOf s.data

/-- Model of `strings.Contains(s, string(c))` for a one-character needle. -/
def strContainsChar (s : String) (c : Char) : Bool :=
  s.data.contains c

/-! ### Lemmas about `splitN2` -/

theorem splitN2_fst (sep c : Char) (rest : List Char) :
    (splitN2 sep (c :: rest)).1 =
      if c = sep then [] else c :: (splitN2 sep rest).1 := by
  by_cases hc : c = sep <;> simp [splitN2, hc]

theorem splitN2_snd (sep c : Char) (rest : List Char) :
    (splitN2 sep (c :: rest)).2 =
      if c = sep then some rest else (splitN2 sep rest).2 := by
  by_cases hc : c = sep <;> simp [splitN2, hc]

theorem splitN2_sep_not_mem (sep : Char) :
    ∀ l : List Char, sep ∉ (splitN2 sep l).1 := by
  intro l
  induction l with
  | nil => simp [splitN2]
  | cons c rest ih =>
    by_cases hc : c = sep
    · simp [splitN2, hc]
    · simp only [splitN2, if_neg hc]
      intro h
      rcases List.mem_cons.mp h with h1 | h1
      · exact hc h1.symm
      · exact ih h1

theorem splitN2_no_sep (sep : Char) :
    ∀ l : List Char, sep ∉ l → splitN2 sep l = (l, none) := by
  intro l
  induction l with
  | nil => intro _; rfl
  | cons c rest ih =>
    intro h
    have hc : c ≠ sep := fun he => h (he ▸ List.mem_cons_self c rest)
    have hrest : sep ∉ rest := fun hm => h (List.mem_cons_of_mem c hm)
    simp [splitN2, hc, ih hrest]

theorem splitN2_append (sep : Char) :
    ∀ xs ys : List Char, sep ∉ xs →
      splitN2 sep (xs ++ sep :: ys) = (xs, some ys) := by
  intro xs
  induction xs with
  | nil => intro ys _; simp [splitN2]
  | cons c rest ih =>
    intro ys h
    have hc : c ≠ sep := fun he => h (he ▸ List.mem_cons_self c rest)
    have hrest : sep ∉ rest := fun hm => h (List.mem_cons_of_mem c hm)
    simp [splitN2, hc, ih ys hrest]

/-- The first component of a 2-way split is a prefix of the input. -/
theorem splitN2_fst_isPre (sep : Char) :
    ∀ l : List Char, (splitN2 sep l).1 <+: l := by
  intro l
  induction l with
  | nil => simp [splitN2]
  | cons c rest ih =>
    by_cases hc : c = sep
    · simp [splitN2, hc]
    · simp only [splitN2, if_neg hc]
      exact (List.prefix_cons_inj c).mpr ih

/-- When the separator occurs, the input decomposes around its first
occurrence. -/
theorem splitN2_snd_some (sep : Char) :
    ∀ l b : List Char, (splitN2 sep l).2 = some b →
      l = (splitN2 sep l).1 ++ sep :: b := by
  intro l
  induction l with
  | nil => intro b h; simp [splitN2] at h
  | cons c rest ih =>
    intro b h
    by_cases hc : c = sep
    · subst hc
      simp [splitN2] at h ⊢
      exact h
    · simp only [splitN2, if_neg hc] at h ⊢
      have := ih b h
      simp only [List.cons_append]
      exact congrArg (c :: ·) this

theorem splitN2_fst_nil_iff (sep : Char) :
    ∀ l : List Char, (splitN2 sep l).1 = [] ↔ (l = [] ∨ l.head? = some sep) := by
  intro l
  cases l with
  | nil => simp [splitN2]
  | cons c rest =>
    by_cases hc : c = sep
    · simp [splitN2, hc]
    · simp [splitN2, hc, Ne.symm hc]

/-! ## The argument splitter `splitWith` (cmd/main.go) -/

/-- The result quadruple `(module, version, replace, err)` of `splitWith`.
The error is `fmt.Errorf("module name is required")` or `nil`. -/
structure SplitResult where
  module : String
  version : String
  replace : String
  err : Option String
  deriving Repr, DecidableEq

/-- Model of `splitWith` from cmd/main.go: splits a `--with` argument into module,
version and replacement.  Mirrors the source exactly: the argument is first
split at the first `=` (`strings.SplitN(arg, replaceSplit, 2)`), the part
before it is split at the first `@` (`strings.SplitN(modules[0],
versionSplit, 2)`), and each branch then re-splits on `=` again exactly as
the source does. -/
def splitWith (arg : String) : SplitResult :=
  -- modules := strings.SplitN(arg, replaceSplit, 2)
  let p := splitN2 '=' arg.data
  let replace0 : List Char := p.2.getD []
  -- parts := strings.SplitN(modules[0], versionSplit, 2)
  let q := splitN2 '@' p.1
  let (module1, version1, replace1) : List Char × List Char × List Char :=
    match q.2 with
    | none =>
      -- parts := strings.SplitN(module, replaceSplit, 2)
      let q1 := splitN2 '=' q.1
      match q1.2 with
      | some r => (q1.1, [], r)
      | none => (q.1, [], replace0)
    | some ver =>
      -- parts := strings.SplitN(version, replaceSplit, 2)
      let q1 := splitN2 '=' ver
      match q1.2 with
      | some r => (q.1, q1.1, r)
      | none => (q.1, ver, replace0)
  { module := ⟨module1⟩
    version := ⟨version1⟩
    replace := ⟨replace1⟩
    err := if module1.isEmpty then some "module name is required" else none }

/-- Appending strings concatenates the underlying character lists. -/
theorem strData_append (a b : String) : (a ++ b).data = a.data ++ b.data := rfl

theorem strMk_data (s : String) : (⟨s.data⟩ : String) = s := rfl

theorem atChar_data : ("@" : String).data = ['@'] := rfl

theorem eqChar_data : ("=" : String).data = ['='] := rfl

/-- Evaluation lemma for `splitWith`: because the component before the first
`=` contains no further `=`, the source's inner re-splits on `=` never fire,
and the result is determined by the two outer splits alone. -/
theorem splitWith_eval (arg : String) :
    splitWith arg =
      { module := ⟨(splitN2 '@' (splitN2 '=' arg.data).1).1⟩
        version := ⟨((splitN2 '@' (splitN2 '=' arg.data).1).2).getD []⟩
        replace := ⟨((splitN2 '=' arg.data).2).getD []⟩
        err := if ((splitN2 '@' (splitN2 '=' arg.data).1).1).isEmpty then
            some "module name is required" else none } := by
  have hm0 : '=' ∉ (splitN2 '=' arg.data).1 := splitN2_sep_not_mem '=' arg.data
  cases hq : (splitN2 '@' (splitN2 '=' arg.data).1).2 with
  | none =>
    -- no version separator: the re-split of `module` on `=` finds nothing
    have hmod : '=' ∉ (splitN2 '@' (splitN2 '=' arg.data).1).1 := by
      intro hmem
      exact hm0 ((splitN2_fst_isPre '@' (splitN2 '=' arg.data).1).subset hmem)
    simp [splitWith, hq, splitN2_no_sep '=' _ hmod]
  | some ver =>
    -- a version separator: the re-split of `version` on `=` finds nothing
    have hver : '=' ∉ ver := by
      intro hmem
      have hdec := splitN2_snd_some '@' (splitN2 '=' arg.data).1 ver hq
      exact hm0 (hdec ▸ List.mem_append.mpr
        (Or.inr (List.mem_cons_of_mem '@' hmem)))
    simp [splitWith, hq, splitN2_no_sep '=' ver hver]

/-! ### Claim C4: where `splitWith` separates module from version -/

/--
C4 counterexample.  The claim states that `splitWith` separates module from
version at the **last** occurrence of `@` (so that a module path containing
embedded `@` characters is kept whole when a version is present).  On input
`"a@b@v1"` a last-`@` split would give module `"a@b"` and version `"v1"`,
but the source (`strings.SplitN(modules[0], versionSplit, 2)` in
cmd/main.go) splits at the **first** `@`, giving module `"a"` and version
`"b@v1"`: the embedded `@` lands in the version, and the module is not kept
whole.
-/
theorem splitWith_first_at_counterexample :
    (splitWith "a@b@v1").module = "a" ∧
    (splitWith "a@b@v1").version = "b@v1" ∧
    ("a" : String) ≠ "a@b" := by
  refine ⟨rfl, rfl, ?_⟩
  decide

/--
C4 amended: for every input argument that contains a version separator,
`splitWith` separates module from version at the **first** occurrence of
`@` in the portion before the first `=`; any further `@` characters are left
embedded in the version part, so a module path containing `@` is never kept
whole.  Formally: for a module part `m` free of `@` and `=` and a version
part `v` free of `=` (but possibly containing `@`), `splitWith (m ++ "@" ++
v)` yields module `m` and version `v`.
-/
theorem splitWith_splits_at_first_at (m v : String)
    (hm : m ≠ "") (hm1 : '@' ∉ m.data) (hm2 : '=' ∉ m.data)
    (hv : '=' ∉ v.data) :
    splitWith (m ++ "@" ++ v) = ⟨m, v, "", none⟩ := by
  have hdata : (m ++ "@" ++ v).data = m.data ++ '@' :: v.data := by
    simp [strData_append, atChar_data]
  have hnoeq : '=' ∉ m.data ++ '@' :: v.data := by
    intro h
    rcases List.mem_append.mp h with h1 | h1
    · exact hm2 h1
    · rcases List.mem_cons.mp h1 with h2 | h2
      · exact absurd h2 (by decide)
      · exact hv h2
  have hme : ¬ m.data.isEmpty := by
    cases hd : m.data with
    | nil => exact absurd (by simpa [strMk_data] using congrArg String.mk hd) hm
    | cons c cs => simp
  rw [splitWith_eval, hdata, splitN2_no_sep '=' _ hnoeq,
    splitN2_append '@' m.data v.data hm1]
  simp [hme, strMk_data]

/-- C4 witness: the amended theorem applied at the concrete input
`"path@x@v1.0.0"` (module part `"path"`, version part `"x@v1.0.0"`). -/
theorem splitWith_splits_at_first_at_witness :
    splitWith ("path" ++ "@" ++ "x@v1.0.0") = ⟨"path", "x@v1.0.0", "", none⟩ :=
  splitWith_splits_at_first_at "path" "x@v1.0.0"
    (by decide) (by decide) (by decide) (by decide)

/-! ### Claim C8: the error cases of `splitWith` -/

/--
C8: `splitWith` returns the error "module name is required" exactly for
inputs whose module component is empty after splitting — the empty string
and every input starting with `@` or `=` — and returns no error for a bare
module name free of separator characters, yielding `(module, "", "", nil)`.
-/
theorem splitWith_error_iff (s : String) :
    ((splitWith s).err = some "module name is required" ↔
      (s = "" ∨ s.data.head? = some '@' ∨ s.data.head? = some '=')) ∧
    (s ≠ "" → '@' ∉ s.data → '=' ∉ s.data → splitWith s = ⟨s, "", "", none⟩) := by
  constructor
  · rw [splitWith_eval]
    cases hd : s.data with
    | nil =>
      have hs : s = "" := by
        simpa [strMk_data] using congrArg String.mk hd
      subst hs
      simp [splitN2]
    | cons c cs =>
      have hs : s ≠ "" := by
        intro h
        rw [h] at hd
        exact absurd hd (by simp [String.data])
      by_cases hceq : c = '='
      · subst hceq
        simp [splitN2_fst '=' '=' cs, splitN2]
      · by_cases hcat : c = '@'
        · subst hcat
          simp [splitN2_fst '=' '@' cs, hceq, splitN2_fst '@' '@' _, hs]
        · -- module component starts with `c`, hence nonempty, hence no error
          simp [splitN2_fst '=' c cs, hceq, splitN2_fst '@' c _, hcat, hs]
  · intro hs hat heq
    have hme : ¬ s.data.isEmpty := by
      cases hd : s.data with
      | nil =>
        exact absurd (by simpa [strMk_data] using congrArg String.mk hd) hs
      | cons c cs => simp
    rw [splitWith_eval, splitN2_no_sep '=' s.data heq,
      splitN2_no_sep '@' s.data hat]
    simp [hme, strMk_data]

/-- C8 witness: the second conjunct applied at the bare module name
`"module"`, and the first at `"@x"`. -/
theorem splitWith_error_iff_witness :
    splitWith "module" = ⟨"module", "", "", none⟩ ∧
    (splitWith "@x").err = some "module name is required" := by
  constructor
  · exact (splitWith_error_iff "module").2 (by decide) (by decide) (by decide)
  · exact ((splitWith_error_iff "@x").1).mpr (by right; left; rfl)

/-! ### Claim C9: full `module@version=replace` inputs -/

/--
C9: for every input of the form `module@version=replace` (module free of
`@`/`=`, version free of `@`/`=`), `splitWith` returns `(module, version,
replace, nil)` with the replace segment preserved verbatim, even when the
replace segment itself contains further `@` or `=` characters.
-/
theorem splitWith_replace_verbatim (m v r : String)
    (hm : m ≠ "") (hm1 : '@' ∉ m.data) (hm2 : '=' ∉ m.data)
    (_hv1 : '@' ∉ v.data) (hv2 : '=' ∉ v.data) :
    splitWith (m ++ "@" ++ v ++ "=" ++ r) = ⟨m, v, r, none⟩ := by
  have hdata : (m ++ "@" ++ v ++ "=" ++ r).data =
      (m.data ++ '@' :: v.data) ++ '=' :: r.data := by
    simp [strData_append, atChar_data, eqChar_data]
  have hnoeq : '=' ∉ m.data ++ '@' :: v.data := by
    intro h
    rcases List.mem_append.mp h with h1 | h1
    · exact hm2 h1
    · rcases List.mem_cons.mp h1 with h2 | h2
      · exact absurd h2 (by decide)
      · exact hv2 h2
  have hme : ¬ m.data.isEmpty := by
    cases hd : m.data with
    | nil => exact absurd (by simpa [strMk_data] using congrArg String.mk hd) hm
    | cons c cs => simp
  rw [splitWith_eval, hdata, splitN2_append '=' _ r.data hnoeq,
    splitN2_append '@' m.data v.data hm1]
  simp [hme, strMk_data]

/-- C9 witness: `"module@v1=replace@v2"` yields replace `"replace@v2"`
verbatim. -/
theorem splitWith_replace_verbatim_witness :
    splitWith ("module" ++ "@" ++ "v1" ++ "=" ++ "replace@v2") =
      ⟨"module", "v1", "replace@v2", none⟩ :=
  splitWith_replace_verbatim "module" "v1" "replace@v2"
    (by decide) (by decide) (by decide) (by decide) (by decide)

/-! ## Go's `path` package: `Clean` and `Join`

`path.Clean` is modelled by its documented lexical algorithm: iteratively
replace multiple slashes by one, eliminate `.` elements, eliminate each
inner `..` together with the non-`..` element before it, and eliminate `..`
elements that begin a rooted path; return `.` if the result is empty.  The
model splits the path into `/`-separated components and processes them with
a stack, which computes exactly that. -/

/-- Split a character list at every `'/'` (like `strings.Split(s, "/")`);
always returns a non-empty list of components. -/
def splitSlash : List Char → List (List Char)
  | [] => [[]]
  | c :: rest =>
    if c = '/' then [] :: splitSlash rest
    else
      match splitSlash rest with
      | [] => [[c]]
      | h :: t => (c :: h) :: t

/-- Join components with `'/'` (like `strings.Join(cs, "/")`). -/
def joinSlash : List (List Char) → List Char
  | [] => []
  | [x] => x
  | x :: y :: t => x ++ '/' :: joinSlash (y :: t)

/-- One step of `path.Clean`'s element processing: push a normal element,
and on `..` either pop the previous element, drop the `..` (at the root of
a rooted path), or keep it (at the head of an unrooted path). -/
def cleanStep (rooted : Bool) (st : List (List Char)) (c : List Char) :
    List (List Char) :=
  if c = ['.', '.'] then
    match st with
    | [] => if rooted then [] else [c]
    | top :: rest => if top = ['.', '.'] then c :: st else rest
  else c :: st

/-- Model of `path.Clean` on a character list. -/
def cleanL (l : List Char) : List Char :=
  if l = [] then ['.']
  else
    let rooted : Bool := l.head? = some '/'
    let comps := (splitSlash l).filter (fun c => !c.isEmpty && c ≠ ['.'])
    let st := comps.foldl (cleanStep rooted) []
    let body := joinSlash st.reverse
    if rooted then '/' :: body
    else if body = [] then ['.'] else body

/-- Model of `path.Clean` on strings. -/
def pathClean (s : String) : String := ⟨cleanL s.data⟩

/-- Model of `path.Join` restricted to two elements, as used by
`normalizeImportPath`: empty elements are skipped, the rest are joined with
`'/'` and the result is cleaned; all-empty input gives `""`. -/
def pathJoin2 (a b : String) : String :=
  if a = "" ∧ b = "" then ""
  else if a = "" then pathClean b
  else if b = "" then pathClean a
  else pathClean ⟨a.data ++ '/' :: b.data⟩

/-! ### Lemmas about `splitSlash`, `joinSlash` and `cleanL` -/

theorem splitSlash_ne_nil : ∀ l : List Char, splitSlash l ≠ [] := by
  intro l
  cases l with
  | nil => simp [splitSlash]
  | cons c rest =>
    by_cases hc : c = '/'
    · simp [splitSlash, hc]
    · simp only [splitSlash, if_neg hc]
      cases splitSlash rest <;> simp

theorem splitSlash_slash (l : List Char) :
    splitSlash ('/' :: l) = [] :: splitSlash l := by
  simp [splitSlash]

theorem splitSlash_cons_ne (c : Char) (l : List Char) (hc : c ≠ '/') :
    splitSlash (c :: l) =
      (c :: (splitSlash l).headI) :: (splitSlash l).tail := by
  simp only [splitSlash, if_neg hc]
  cases h : splitSlash l with
  | nil => exact absurd h (splitSlash_ne_nil l)
  | cons a t => simp

theorem joinSlash_splitSlash : ∀ l : List Char, joinSlash (splitSlash l) = l := by
  intro l
  induction l with
  | nil => rfl
  | cons c rest ih =>
    by_cases hc : c = '/'
    · subst hc
      rw [splitSlash_slash]
      cases h : splitSlash rest with
      | nil => exact absurd h (splitSlash_ne_nil rest)
      | cons a t =>
        rw [h] at ih
        simpa [joinSlash] using ih
    · rw [splitSlash_cons_ne c rest hc]
      cases h : splitSlash rest with
      | nil => exact absurd h (splitSlash_ne_nil rest)
      | cons a t =>
        rw [h] at ih
        cases t with
        | nil => simpa [joinSlash] using ih
        | cons b t2 => simpa [joinSlash] using ih

theorem splitSlash_append : ∀ xs ys : List Char,
    splitSlash (xs ++ '/' :: ys) = splitSlash xs ++ splitSlash ys := by
  intro xs
  induction xs with
  | nil => intro ys; simp [splitSlash]
  | cons c rest ih =>
    intro ys
    by_cases hc : c = '/'
    · subst hc
      simp only [List.cons_append, splitSlash_slash, ih ys, List.cons_append]
    · rw [List.cons_append, splitSlash_cons_ne c _ hc, splitSlash_cons_ne c rest hc,
        ih ys]
      cases h : splitSlash rest with
      | nil => exact absurd h (splitSlash_ne_nil rest)
      | cons a t => simp

theorem splitSlash_no_slash : ∀ l : List Char, '/' ∉ l → splitSlash l = [l] := by
  intro l
  induction l with
  | nil => intro _; rfl
  | cons c rest ih =>
    intro h
    have hc : c ≠ '/' := fun he => h (he ▸ List.mem_cons_self c rest)
    have hrest : '/' ∉ rest := fun hm => h (List.mem_cons_of_mem c hm)
    rw [splitSlash_cons_ne c rest hc, ih hrest]
    simp

theorem joinSlash_append : ∀ xs ys : List (List Char), xs ≠ [] → ys ≠ [] →
    joinSlash (xs ++ ys) = joinSlash xs ++ '/' :: joinSlash ys := by
  intro xs
  induction xs with
  | nil => intro ys h _; exact absurd rfl h
  | cons a t ih =>
    intro ys _ hys
    cases t with
    | nil =>
      cases ys with
      | nil => exact absurd rfl hys
      | cons b t2 => simp [joinSlash]
    | cons b t2 =>
      calc joinSlash ((a :: b :: t2) ++ ys)
          = a ++ '/' :: joinSlash ((b :: t2) ++ ys) := rfl
        _ = a ++ '/' :: (joinSlash (b :: t2) ++ '/' :: joinSlash ys) := by
            rw [ih ys (by simp) hys]
        _ = (a ++ '/' :: joinSlash (b :: t2)) ++ '/' :: joinSlash ys := by
            simp
        _ = joinSlash (a :: b :: t2) ++ '/' :: joinSlash ys := rfl

/-- A "good" component: non-empty and not a dot element.  Paths made of
good components are fixed points of `path.Clean`. -/
def goodComp (c : List Char) : Bool :=
  !c.isEmpty && c ≠ ['.'] && c ≠ ['.', '.']

/-- A "good" module path: every `/`-separated component is good.  This
rules out empty paths, rooted paths, trailing or doubled slashes and dot
components — exactly the shapes a Go module path cannot have. -/
def goodPath (s : String) : Bool :=
  (splitSlash s.data).all goodComp

theorem cleanStep_push (rooted : Bool) :
    ∀ (cs : List (List Char)) (st : List (List Char)),
      (∀ c ∈ cs, c ≠ ['.', '.']) →
      cs.foldl (cleanStep rooted) st = cs.reverse ++ st := by
  intro cs
  induction cs with
  | nil => intro st _; rfl
  | cons a t ih =>
    intro st h
    have ha : a ≠ ['.', '.'] := h a (List.mem_cons_self a t)
    have ht : ∀ c ∈ t, c ≠ ['.', '.'] := fun c hc => h c (List.mem_cons_of_mem a hc)
    simp only [List.foldl_cons, cleanStep, if_neg ha, ih (a :: st) ht]
    simp

theorem goodPath_head_ne_slash {s : String} (h : goodPath s = true) :
    s.data.head? ≠ some '/' := by
  intro hh
  cases hd : s.data with
  | nil => rw [hd] at hh; simp at hh
  | cons c rest =>
    rw [hd] at hh
    simp at hh
    subst hh
    rw [goodPath, hd, splitSlash_slash] at h
    simp [goodComp] at h

theorem goodPath_data_ne_nil {s : String} (h : goodPath s = true) :
    s.data ≠ [] := by
  intro hd
  rw [goodPath, hd] at h
  simp [splitSlash, goodComp] at h

/-- Good components pass `Clean`'s element filter unchanged. -/
theorem filter_good (cs : List (List Char)) (h : cs.all goodComp) :
    cs.filter (fun c => !c.isEmpty && c ≠ ['.']) = cs := by
  apply List.filter_eq_self.mpr
  intro c hc
  have hcg : goodComp c = true := (List.all_eq_true.mp h) c hc
  unfold goodComp at hcg
  exact (Bool.and_eq_true_iff.mp hcg).1

theorem good_no_dotdot (cs : List (List Char)) (h : cs.all goodComp) :
    ∀ c ∈ cs, c ≠ ['.', '.'] := by
  intro c hc
  have hcg : goodComp c = true := (List.all_eq_true.mp h) c hc
  unfold goodComp at hcg
  exact of_decide_eq_true (Bool.and_eq_true_iff.mp hcg).2

/-- Lemma: `path.Clean` is the identity on good paths. -/
theorem cleanL_of_good {s : String} (h : goodPath s = true) :
    cleanL s.data = s.data := by
  have hnil := goodPath_data_ne_nil h
  have hroot : decide (s.data.head? = some '/') = false :=
    decide_eq_false (goodPath_head_ne_slash h)
  simp only [cleanL, if_neg hnil, hroot]
  rw [filter_good _ h, cleanStep_push false _ [] (good_no_dotdot _ h)]
  simp only [List.append_nil, List.reverse_reverse, joinSlash_splitSlash]
  simp [hnil]

theorem pathClean_of_good {s : String} (h : goodPath s = true) :
    pathClean s = s := by
  unfold pathClean
  rw [cleanL_of_good h]

/-! ## `normalizeImportPath` (cmd/main.go) and `filepath.ToSlash`

`normalizeImportPath(currentModule, cwd, moduleDir)` is
`path.Join(currentModule, filepath.ToSlash(strings.TrimPrefix(cwd, moduleDir)))`.
`filepath.ToSlash` depends on the host platform's separator: it is the
identity when `Separator == '/'`, and otherwise replaces every separator
character by `'/'`.  The separator is made an explicit parameter `sep` so
that behaviour on both platform conventions can be stated. -/

/-- Model of `filepath.ToSlash` with the host separator made explicit. -/
def filepathToSlash (sep : Char) (s : List Char) : List Char :=
  if sep = '/' then s else s.map (fun c => if c = sep then '/' else c)

/-- Model of `normalizeImportPath` from cmd/main.go, parameterized by the host
path-separator `sep`. -/
def normalizeImportPath (sep : Char) (currentModule cwd moduleDir : String) :
    String :=
  pathJoin2 currentModule ⟨filepathToSlash sep (trimPre cwd.data moduleDir.data)⟩

theorem trimPre_self (l : List Char) : trimPre l l = [] := by
  simp [trimPre, List.isPrefixOf_iff_prefix]

theorem trimPre_append (pre rest : List Char) : trimPre (pre ++ rest) pre = rest := by
  have h : pre.isPrefixOf (pre ++ rest) = true := by
    simp [List.isPrefixOf_iff_prefix]
  simp [trimPre, h, List.drop_left]

/-- Joining a good module path `M` with a rooted good suffix `'/' :: S`
through `path.Join` appends the suffix (the doubled slash collapses). -/
theorem normalize_join_aux (M S : String)
    (hM : goodPath M = true) (hS : goodPath S = true) :
    pathJoin2 M ⟨'/' :: S.data⟩ = M ++ "/" ++ S := by
  have hM0 : M ≠ "" := fun h => goodPath_data_ne_nil hM (by rw [h])
  have hb0 : (⟨'/' :: S.data⟩ : String) ≠ "" := by
    intro h
    have := congrArg String.data h
    simp at this
  rw [pathJoin2]
  simp only [hM0, hb0, false_and, and_false, if_false, if_neg hM0, if_neg hb0]
  -- the concatenated path M.data ++ '/' :: '/' :: S.data cleans to
  -- M.data ++ '/' :: S.data
  have hdata3 : (M ++ "/" ++ S).data = M.data ++ '/' :: S.data := by
    simp [strData_append]
  unfold pathClean
  apply congrArg String.mk ∘ Eq.trans rfl
  show cleanL (M.data ++ '/' :: '/' :: S.data) = (M ++ "/" ++ S).data
  rw [hdata3]
  have hnil : M.data ++ '/' :: '/' :: S.data ≠ [] := by
    simp
  have hhead : decide ((M.data ++ '/' :: '/' :: S.data).head? = some '/') = false := by
    apply decide_eq_false
    intro hh
    cases hd : M.data with
    | nil => exact goodPath_data_ne_nil hM hd
    | cons c cs =>
      rw [hd] at hh
      simp at hh
      exact goodPath_head_ne_slash hM (by simp [hd, hh])
  simp only [cleanL, if_neg hnil, hhead]
  have hsplit : splitSlash (M.data ++ '/' :: '/' :: S.data) =
      splitSlash M.data ++ [] :: splitSlash S.data := by
    rw [splitSlash_append M.data ('/' :: S.data), splitSlash_slash]
  rw [hsplit]
  have hMg : (splitSlash M.data).all goodComp := hM
  have hSg : (splitSlash S.data).all goodComp := hS
  rw [List.filter_append]
  rw [filter_good _ hMg]
  have hfilterS : List.filter (fun c => !c.isEmpty && c ≠ ['.'])
      ([] :: splitSlash S.data) = splitSlash S.data := by
    rw [List.filter_cons]
    simp only [List.isEmpty_nil, Bool.not_true, Bool.false_and, if_false]
    exact filter_good _ hSg
  rw [hfilterS]
  have hnodd : ∀ c ∈ splitSlash M.data ++ splitSlash S.data, c ≠ ['.', '.'] := by
    intro c hc
    rcases List.mem_append.mp hc with h | h
    · exact good_no_dotdot _ hMg c h
    · exact good_no_dotdot _ hSg c h
  rw [cleanStep_push false _ [] hnodd]
  simp only [List.append_nil, List.reverse_reverse]
  rw [joinSlash_append _ _ (splitSlash_ne_nil M.data) (splitSlash_ne_nil S.data)]
  rw [joinSlash_splitSlash, joinSlash_splitSlash]
  have hbody : M.data ++ '/' :: S.data ≠ [] := by simp
  simp [hbody]

/-! ### Claim C7: behaviour of the import path normalizer -/

/--
C7 counterexample.  The claim states that the backslash-separated
(Windows-style) input yields the same forward-slash-joined result
*regardless of the host platform's path-separator convention*.  In the
source, `filepath.ToSlash` is the identity on hosts whose separator is
`'/'`, so on such hosts the backslash input is not converted: with
`currentModule = "github.com/caddyserver/xcaddy"`, `cwd =
"c:\xcaddy\subdir"` and `moduleDir = "c:\xcaddy"`, a `'/'`-separator host
produces a path containing a literal backslash, while a `'\'`-separator
host produces `"github.com/caddyserver/xcaddy/subdir"`.  (This matches the
repository's own tests, which run the backslash cases only on Windows.)
-/
theorem normalizeImportPath_platform_counterexample :
    normalizeImportPath '\\' "github.com/caddyserver/xcaddy"
        "c:\\xcaddy\\subdir" "c:\\xcaddy" =
      "github.com/caddyserver/xcaddy/subdir" ∧
    normalizeImportPath '/' "github.com/caddyserver/xcaddy"
        "c:\\xcaddy\\subdir" "c:\\xcaddy" =
      "github.com/caddyserver/xcaddy/\\subdir" ∧
    ("github.com/caddyserver/xcaddy/\\subdir" : String) ≠
      "github.com/caddyserver/xcaddy/subdir" := by
  refine ⟨by decide, by decide, by decide⟩

/--
C7 amended: `normalizeImportPath(M, D, D) = M` for every good module path
`M` and directory `D` on any host; `normalizeImportPath(M, D ++ "/" ++ S,
D) = M ++ "/" ++ S` for `/`-separated inputs on a `'/'`-separator host; and
the backslash-separated equivalent yields the same forward-slash-joined
result on a `'\'`-separator (Windows) host — but not on other hosts, where
`filepath.ToSlash` leaves backslashes alone (see the counterexample).
-/
theorem normalizeImportPath_spec :
    (∀ (sep : Char) (M D : String), goodPath M = true →
      normalizeImportPath sep M D D = M) ∧
    (∀ M D S : String, goodPath M = true → goodPath S = true →
      normalizeImportPath '/' M (D ++ "/" ++ S) D = M ++ "/" ++ S) ∧
    (∀ M D S : String, goodPath M = true → goodPath S = true →
      '\\' ∉ S.data →
      normalizeImportPath '\\' M (D ++ "\\" ++ S) D = M ++ "/" ++ S) := by
  refine ⟨?_, ?_, ?_⟩
  · intro sep M D hM
    unfold normalizeImportPath
    rw [trimPre_self]
    have hts : filepathToSlash sep [] = [] := by
      unfold filepathToSlash
      by_cases h : sep = '/' <;> simp [h]
    rw [hts]
    have hM0 : M ≠ "" := by
      intro h
      exact goodPath_data_ne_nil hM (by rw [h])
    show pathJoin2 M "" = M
    rw [pathJoin2]
    simp [hM0, pathClean_of_good hM]
  · intro M D S hM hS
    unfold normalizeImportPath
    have hdata : (D ++ "/" ++ S).data = D.data ++ '/' :: S.data := by
      simp [strData_append]
    rw [hdata, show D.data ++ '/' :: S.data = D.data ++ ('/' :: S.data) from rfl,
      trimPre_append]
    rw [show filepathToSlash '/' ('/' :: S.data) = '/' :: S.data from by
      simp [filepathToSlash]]
    exact normalize_join_aux M S hM hS
  · intro M D S hM hS hbs
    unfold normalizeImportPath
    have hdata : (D ++ "\\" ++ S).data = D.data ++ '\\' :: S.data := by
      simp [strData_append]
    rw [hdata, show D.data ++ '\\' :: S.data = D.data ++ ('\\' :: S.data) from rfl,
      trimPre_append]
    have hts : filepathToSlash '\\' ('\\' :: S.data) = '/' :: S.data := by
      simp only [filepathToSlash, if_neg (by decide : ('\\' : Char) ≠ '/')]
      simp only [List.map_cons, if_pos rfl]
      congr 1
      calc S.data.map (fun c => if c = '\\' then '/' else c)
          = S.data.map id := by
            apply List.map_congr_left
            intro c hc
            have hne : c ≠ '\\' := fun h => hbs (h ▸ hc)
            simp [hne]
        _ = S.data := List.map_id S.data
    rw [hts]
    exact normalize_join_aux M S hM hS

/-- C7 witness: the amended theorem applied at the repository's own test
inputs. -/
theorem normalizeImportPath_spec_witness :
    normalizeImportPath '/' "github.com/caddyserver/xcaddy"
        "/xcaddy" "/xcaddy" = "github.com/caddyserver/xcaddy" ∧
    normalizeImportPath '/' "github.com/caddyserver/xcaddy"
        ("/xcaddy" ++ "/" ++ "subdir") "/xcaddy" =
      "github.com/caddyserver/xcaddy" ++ "/" ++ "subdir" ∧
    normalizeImportPath '\\' "github.com/caddyserver/xcaddy"
        ("c:\\xcaddy" ++ "\\" ++ "subdir") "c:\\xcaddy" =
      "github.com/caddyserver/xcaddy" ++ "/" ++ "subdir" :=
  ⟨normalizeImportPath_spec.1 '/' "github.com/caddyserver/xcaddy" "/xcaddy"
      (by decide),
    normalizeImportPath_spec.2.1 "github.com/caddyserver/xcaddy" "/xcaddy"
      "subdir" (by decide) (by decide),
    normalizeImportPath_spec.2.2 "github.com/caddyserver/xcaddy" "c:\\xcaddy"
      "subdir" (by decide) (by decide) (by decide)⟩

/-! ## The `Masterminds/semver/v3` strict parser

`semver.StrictNewVersion` is modelled from the library source: split the
input at the first two dots; extract build metadata after `+` and then a
prerelease after `-` from the third part, rejecting empty ones; require the
three numeric parts to be digit-only with no leading zero; parse them with
`strconv.ParseUint(…, 10, 64)` (which also rejects empty segments and
values ≥ 2^64); finally validate the prerelease and metadata character
sets. -/

structure SemVer where
  major : Nat
  minor : Nat
  patch : Nat
  pre : List Char
  metadata : List Char
  deriving Repr, DecidableEq

/-- Model of `strings.SplitN(v, ".", 3)`: at most three parts, the last keeps any
further dots. -/
def splitN3dots (s : List Char) : List (List Char) :=
  match splitN2 '.' s with
  | (a, none) => [a]
  | (a, some r1) =>
    match splitN2 '.' r1 with
    | (b, none) => [a, b]
    | (b, some r2) => [a, b, r2]

/-- Digit test used by the parser (`containsOnly(p, num)`). -/
def allNum (s : List Char) : Bool := s.all (fun c => c.isDigit)

/-- Character test for prerelease/metadata parts
(`containsOnly(p, allowed)` with `allowed = alphanum + "-"`). -/
def allAllowed (s : List Char) : Bool :=
  s.all (fun c => c.isAlphanum || c = '-')

/-- Numeric value of a digit string. -/
def charsToNat (s : List Char) : Nat :=
  s.foldl (fun n c => n * 10 + (c.toNat - 48)) 0

/-- Model of `strconv.ParseUint(s, 10, 64)` on a digit-only candidate: rejects the
empty string, non-digits, and values that do not fit in 64 bits. -/
def parseUint64 (s : List Char) : Option Nat :=
  if s.isEmpty then none
  else if allNum s then
    if charsToNat s < 2 ^ 64 then some (charsToNat s) else none
  else none

/-- Model of `validatePrerelease`: dot-separated parts; digit-only parts
(including empty ones, which `containsOnly` accepts vacuously) must not
have a leading zero; other parts must be alphanumeric-or-hyphen. -/
def validatePrerelease (p : List Char) : Bool :=
  (p.splitOn '.').all fun part =>
    if allNum part then
      !(part.length > 1 && part.headI = '0')
    else allAllowed part

/-- Model of `validateMetadata`: dot-separated parts, each non-empty and
alphanumeric-or-hyphen. -/
def validateMetadata (m : List Char) : Bool :=
  (m.splitOn '.').all fun part => !part.isEmpty && allAllowed part

/-- The leading-zero check in `StrictNewVersion`'s number-segment loop. -/
def numSegmentOk (p : List Char) : Bool :=
  allNum p && !(p.length > 1 && p.headI = '0')

/-- The prerelease/build-metadata extraction block of `StrictNewVersion`:
when `parts[2]` contains `-` or `+` (`strings.ContainsAny(parts[2],
"-+")`), split off the build metadata after the first `+`, then the
prerelease after the first `-` of what remains.  Either may come out
empty — the library then leaves `sv.metadata`/`sv.pre` as `""` and never
validates them (the `sv.pre == "" && sv.metadata == ""` fastpath).
Returns `(remaining numeric part, prerelease, metadata)`. -/
def extractPreMeta (p2orig : List Char) : List Char × List Char × List Char :=
  if p2orig.contains '-' || p2orig.contains '+' then
    let afterPlus := splitN2 '+' p2orig
    let metadata := afterPlus.2.getD []
    let afterMinus := splitN2 '-' afterPlus.1
    let pre := afterMinus.2.getD []
    (afterMinus.1, pre, metadata)
  else (p2orig, [], [])

/-- The body of `StrictNewVersion` once the three dot-separated parts are
in hand: extract prerelease/metadata, validate the number segments, parse
them with `ParseUint(…, 10, 64)`, and validate the prerelease and the
metadata only when non-empty. -/
def strictFromParts (p0 p1 p2orig : List Char) : Option SemVer :=
  if numSegmentOk p0 && numSegmentOk p1 &&
      numSegmentOk (extractPreMeta p2orig).1 then
    match parseUint64 p0, parseUint64 p1,
        parseUint64 (extractPreMeta p2orig).1 with
    | some major, some minor, some patch =>
      if (extractPreMeta p2orig).2.1 ≠ [] &&
          !validatePrerelease (extractPreMeta p2orig).2.1 then none
      else if (extractPreMeta p2orig).2.2 ≠ [] &&
          !validateMetadata (extractPreMeta p2orig).2.2 then none
      else some ⟨major, minor, patch,
        (extractPreMeta p2orig).2.1, (extractPreMeta p2orig).2.2⟩
    | _, _, _ => none
  else none

/-- Model of `semver.StrictNewVersion` (v3): `none` models a parse error. -/
def strictNewVersion (v : List Char) : Option SemVer :=
  if v.isEmpty then none
  else
    match splitN3dots v with
    | [p0, p1, p2orig] => strictFromParts p0 p1 p2orig
    | _ => none

theorem strictNewVersion_nil : strictNewVersion [] = none := rfl

theorem parseUint64_lt {s : List Char} {n : Nat}
    (h : parseUint64 s = some n) : n < 2 ^ 64 := by
  unfold parseUint64 at h
  split at h
  · simp at h
  · split at h
    · split at h
      case _ hlt => exact Option.some_inj.mp h ▸ hlt
      · simp at h
    · simp at h

theorem strictFromParts_major_lt {p0 p1 p2orig : List Char} {sv : SemVer}
    (h : strictFromParts p0 p1 p2orig = some sv) : sv.major < 2 ^ 64 := by
  unfold strictFromParts at h
  split at h
  · cases hmaj : parseUint64 p0 with
    | none => simp only [hmaj] at h; exact Option.noConfusion h
    | some major =>
      cases hmin : parseUint64 p1 with
      | none => simp only [hmaj, hmin] at h; exact Option.noConfusion h
      | some minor =>
        cases hpat : parseUint64 (extractPreMeta p2orig).1 with
        | none => simp only [hmaj, hmin, hpat] at h; exact Option.noConfusion h
        | some patch =>
          simp only [hmaj, hmin, hpat] at h
          split at h
          · simp at h
          split at h
          · simp at h
          have hs : SemVer.mk major minor patch (extractPreMeta p2orig).2.1
              (extractPreMeta p2orig).2.2 = sv := Option.some_inj.mp h
          rw [← hs]
          exact parseUint64_lt hmaj
  · simp at h

/-- A successful strict parse yields a 64-bit major version (it came from
`strconv.ParseUint(…, 10, 64)`). -/
theorem strictNewVersion_major_lt {v : List Char} {sv : SemVer}
    (h : strictNewVersion v = some sv) : sv.major < 2 ^ 64 := by
  unfold strictNewVersion at h
  split at h
  · simp at h
  split at h
  · exact strictFromParts_major_lt h
  · simp at h

/-! ## `versionedModulePath` (builder.go) -/

/-- Decimal digit character, as produced by `fmt.Sprintf("%d", …)`. -/
def digitChar (n : Nat) : Char := Char.ofNat (48 + n)

/-- Fuel-indexed decimal rendering. -/
def natDigitsAux : Nat → Nat → List Char
  | 0, _ => []
  | fuel + 1, n =>
    if n < 10 then [digitChar n]
    else natDigitsAux fuel (n / 10) ++ [digitChar (n % 10)]

/-- Decimal rendering of a natural number (`fmt.Sprintf("%d", n)`). -/
def natDigits (n : Nat) : List Char := natDigitsAux (n + 1) n

theorem natDigitsAux_chars : ∀ (fuel n : Nat), ∀ c ∈ natDigitsAux fuel n,
    ∃ k, k < 10 ∧ c = digitChar k := by
  intro fuel
  induction fuel with
  | zero => intro n c hc; simp [natDigitsAux] at hc
  | succ f ih =>
    intro n c hc
    unfold natDigitsAux at hc
    split at hc
    · simp at hc
      exact ⟨n, by assumption, hc⟩
    · rcases List.mem_append.mp hc with h | h
      · exact ih (n / 10) c h
      · simp at h
        exact ⟨n % 10, Nat.mod_lt n (by omega), h⟩

theorem digitChar_ne_slash {k : Nat} (hk : k < 10) : digitChar k ≠ '/' := by
  interval_cases k <;> decide

theorem natDigits_no_slash (n : Nat) : '/' ∉ natDigits n := by
  intro h
  obtain ⟨k, hk, he⟩ := natDigitsAux_chars (n + 1) n '/' h
  exact digitChar_ne_slash hk he.symm

/-- The component appended for SIV (`"v" ++ digits`) is a good path
component. -/
theorem good_append_vdigits {p : String} (hp : goodPath p = true) (m : Nat) :
    goodPath ⟨p.data ++ '/' :: 'v' :: natDigits m⟩ = true := by
  unfold goodPath
  rw [show (⟨p.data ++ '/' :: 'v' :: natDigits m⟩ : String).data
      = p.data ++ '/' :: ('v' :: natDigits m) from rfl]
  rw [splitSlash_append]
  have hnos : '/' ∉ 'v' :: natDigits m := by
    intro h
    rcases List.mem_cons.mp h with h1 | h1
    · exact absurd h1 (by decide)
    · exact natDigits_no_slash m h1
  rw [splitSlash_no_slash _ hnos]
  rw [List.all_append]
  have h2 : goodComp ('v' :: natDigits m) = true := by
    unfold goodComp
    have e1 : ('v' :: natDigits m).isEmpty = false := rfl
    have e2 : ('v' :: natDigits m) ≠ ['.'] := by
      intro h; injection h with h1 _; exact absurd h1 (by decide)
    have e3 : ('v' :: natDigits m) ≠ ['.', '.'] := by
      intro h; injection h with h1 _; exact absurd h1 (by decide)
    simp [e1, e2, e3]
  have hp2 := List.all_eq_true.mp hp
  simp [h2]
  intro x hx
  exact hp2 x hx

/-- The capture of Go's `moduleVersionRegexp = .+/v(\d+)$` on a module
path.  The regular expression matches exactly the strings of the form
`A ++ "/v" ++ D` with `A` non-empty and `D` a non-empty run of digits
reaching the end of the string; since `D` contains no `/`, the `/v` of the
match sits at the last slash, so the match can be read off the reversed
string: a maximal trailing digit run, preceded by `v`, preceded by `/`,
preceded by at least one character.  Returns the captured digits. -/
def sivSuffixDigits (l : List Char) : Option (List Char) :=
  match (l.reverse).dropWhile Char.isDigit with
  | 'v' :: '/' :: _ :: _ =>
    match (l.reverse).takeWhile Char.isDigit with
    | [] => none
    | d :: ds => some ((d :: ds).reverse)
  | _ => none

/-- The Go `int(major)` conversion of a `uint64` on a 64-bit platform. -/
def intOfUint64 (m : Nat) : Int :=
  if m < 2 ^ 63 then (m : Int) else (m : Int) - 2 ^ 64

/-- The error cases of `versionedModulePath`. -/
inductive VmpErr
  | invalidVersion
  | impossibleAtoi
  | diverge
  deriving Repr, DecidableEq

/-- Model of `versionedModulePath` from builder.go: enforce semantic import
versioning on a module path given a requested version.  The `Atoi` call on
the captured digits fails when the value exceeds `MaxInt64` (the
"impossible" error branch); `int(major)` truncates the parsed `uint64`. -/
def versionedModulePath (modulePath moduleVersion : String) :
    Except VmpErr String :=
  if moduleVersion = "" then .ok modulePath
  else
    match strictNewVersion (trimPre moduleVersion.data ['v']) with
    | none =>
      -- only report the error if they were trying to use a semantic version
      if strHasPre moduleVersion "v" then .error .invalidVersion
      else .ok modulePath
    | some ver =>
      match sivSuffixDigits modulePath.data with
      | some ds =>
        if 2 ^ 63 ≤ charsToNat ds then .error .impossibleAtoi
        else if (charsToNat ds : Int) ≠ intOfUint64 ver.major then
          .error .diverge
        else .ok (pathClean modulePath)
      | none =>
        if 1 < ver.major then
          .ok (pathClean ⟨modulePath.data ++ '/' :: 'v' :: natDigits ver.major⟩)
        else .ok (pathClean modulePath)

theorem trimPre_empty_str : trimPre ("" : String).data ['v'] = [] := rfl

/-! ### Claim C6: the case analysis of `versionedModulePath` -/

/--
C6: for every module path and version string, `versionedModulePath`
(1) appends `/v<major>` when the (`v`-stripped) version parses as a strict
semantic version with major ≥ 2 and the path has no `/vN` suffix;
(2) returns an error when the path already ends in `/vN` with `N` different
from the version's major;
(3) returns the path unchanged when the version does not parse as a
semantic version and does not start with `v`;
(4) returns the path unchanged when the version is empty; and
(5) returns an error when the version starts with `v` but fails strict
semantic-version parsing.
-/
theorem versionedModulePath_spec :
    (∀ (p v : String) (sv : SemVer),
      strictNewVersion (trimPre v.data ['v']) = some sv → 2 ≤ sv.major →
      sivSuffixDigits p.data = none → goodPath p = true →
      versionedModulePath p v =
        .ok ⟨p.data ++ '/' :: 'v' :: natDigits sv.major⟩) ∧
    (∀ (p v : String) (sv : SemVer) (ds : List Char),
      strictNewVersion (trimPre v.data ['v']) = some sv →
      sivSuffixDigits p.data = some ds → charsToNat ds ≠ sv.major →
      ∃ e, versionedModulePath p v = .error e) ∧
    (∀ p v : String,
      strictNewVersion (trimPre v.data ['v']) = none →
      strHasPre v "v" = false → versionedModulePath p v = .ok p) ∧
    (∀ p : String, versionedModulePath p "" = .ok p) ∧
    (∀ p v : String, strHasPre v "v" = true →
      strictNewVersion (trimPre v.data ['v']) = none →
      versionedModulePath p v = .error .invalidVersion) := by
  refine ⟨?_, ?_, ?_, ?_, ?_⟩
  · intro p v sv hparse hmaj hsiv hgood
    have hv0 : v ≠ "" := by
      intro he; subst he
      rw [trimPre_empty_str, strictNewVersion_nil] at hparse
      exact Option.noConfusion hparse
    simp only [versionedModulePath, if_neg hv0, hparse, hsiv]
    rw [if_pos (by omega : 1 < sv.major)]
    have hg2 := good_append_vdigits hgood sv.major
    rw [pathClean_of_good hg2]
  · intro p v sv ds hparse hsiv hne
    have hv0 : v ≠ "" := by
      intro he; subst he
      rw [trimPre_empty_str, strictNewVersion_nil] at hparse
      exact Option.noConfusion hparse
    simp only [versionedModulePath, if_neg hv0, hparse, hsiv]
    by_cases hbig : 2 ^ 63 ≤ charsToNat ds
    · exact ⟨.impossibleAtoi, by rw [if_pos hbig]⟩
    · have hmaj64 := strictNewVersion_major_lt hparse
      have hint : (charsToNat ds : Int) ≠ intOfUint64 sv.major := by
        unfold intOfUint64
        split
        · intro hc
          exact hne (by exact_mod_cast hc)
        · intro hc
          have h1 : (charsToNat ds : Int) < 2 ^ 63 := by
            exact_mod_cast Nat.lt_of_not_le hbig
          have h2 : (sv.major : Int) < 2 ^ 64 := by exact_mod_cast hmaj64
          omega
      exact ⟨.diverge, by rw [if_neg (by omega : ¬ 2 ^ 63 ≤ charsToNat ds),
        if_pos hint]⟩
  · intro p v hparse hnp
    by_cases hv0 : v = ""
    · subst hv0; rfl
    · simp only [versionedModulePath, if_neg hv0, hparse, hnp]
      simp
  · intro p; rfl
  · intro p v hvp hparse
    have hv0 : v ≠ "" := by
      intro he; subst he
      exact absurd hvp (by decide)
    simp only [versionedModulePath, if_neg hv0, hparse, hvp, if_pos]

/-- C6 witness: all five cases at concrete inputs.  `"foo"`/`"v2.0.0"`
appends `/v2`; `"foo/v2"`/`"v3.0.0"` diverges; `"foo"`/`"abcdef"` passes
through; the empty version passes through; `"v2"` (looks like a semantic
version but is not strict) fails. -/
theorem versionedModulePath_spec_witness :
    versionedModulePath "foo" "v2.0.0" = .ok "foo/v2" ∧
    (∃ e, versionedModulePath "foo/v2" "v3.0.0" = .error e) ∧
    versionedModulePath "foo" "abcdef" = .ok "foo" ∧
    versionedModulePath "foo" "" = .ok "foo" ∧
    versionedModulePath "foo" "v2" = .error .invalidVersion := by
  refine ⟨?_, ?_, ?_, ?_, ?_⟩
  · have h := versionedModulePath_spec.1 "foo" "v2.0.0" ⟨2, 0, 0, [], []⟩
      (by decide) (by decide) (by decide) (by decide)
    rw [h]
    have h2 : (⟨"foo".data ++ '/' :: 'v' ::
        natDigits (SemVer.mk 2 0 0 [] []).major⟩ : String) = "foo/v2" := by
      decide
    rw [h2]
  · exact versionedModulePath_spec.2.1 "foo/v2" "v3.0.0" ⟨3, 0, 0, [], []⟩
      ['2'] (by decide) (by decide) (by decide)
  · exact versionedModulePath_spec.2.2.1 "foo" "abcdef" (by decide) (by decide)
  · exact versionedModulePath_spec.2.2.2.1 "foo"
  · exact versionedModulePath_spec.2.2.2.2 "foo" "v2" (by decide) (by decide)

/-! ## The core module path assumed by `newEnvironment` (environment.go) -/

/-- Constant `defaultCaddyModulePath` from builder.go. -/
def defaultCaddyModulePath : String := "github.com/caddyserver/caddy"

/-- The base core module path computed at the top of
`Builder.newEnvironment`: Caddy v2 is assumed when the configured version
does not start with `"v"` or does not contain a dot. -/
def caddyBasePath (caddyVersion : String) : String :=
  if !(strHasPre caddyVersion "v") || !(strContainsChar caddyVersion '.') then
    defaultCaddyModulePath ++ "/v2"
  else defaultCaddyModulePath

/-- The resolved core module path: the base path passed through
`versionedModulePath`, exactly as `newEnvironment` does. -/
def resolveCoreModulePath (caddyVersion : String) : Except VmpErr String :=
  versionedModulePath (caddyBasePath caddyVersion) caddyVersion

/-! ### Claim C10: `/v2` is appended for non-semver-looking versions -/

/--
C10: for every configured core version string that does not start with `v`
or does not contain a `.`, `newEnvironment` appends `/v2` to the default
core module path before version resolution; and when such a version is
empty or fails to parse as a (`v`-stripped) strict semantic version without
a `v` prefix — an empty version, a branch name, or a commit hash — the
resolved core module path is exactly the major-version-2 import path.
-/
theorem caddyBasePath_spec :
    (∀ v : String,
      (strHasPre v "v" = false ∨ strContainsChar v '.' = false) →
      caddyBasePath v = "github.com/caddyserver/caddy/v2") ∧
    (∀ v : String,
      (strHasPre v "v" = false ∨ strContainsChar v '.' = false) →
      (v = "" ∨ (strictNewVersion (trimPre v.data ['v']) = none ∧
        strHasPre v "v" = false)) →
      resolveCoreModulePath v = .ok "github.com/caddyserver/caddy/v2") := by
  have hbase : ∀ v : String,
      (strHasPre v "v" = false ∨ strContainsChar v '.' = false) →
      caddyBasePath v = "github.com/caddyserver/caddy/v2" := by
    intro v h
    have hc : (!(strHasPre v "v") || !(strContainsChar v '.')) = true := by
      rcases h with h | h <;> simp [h]
    unfold caddyBasePath
    rw [if_pos hc]
    rfl
  refine ⟨hbase, ?_⟩
  intro v hcond hcase
  unfold resolveCoreModulePath
  rw [hbase v hcond]
  rcases hcase with hv0 | ⟨hparse, hnp⟩
  · subst hv0; rfl
  · by_cases hv0 : v = ""
    · subst hv0; rfl
    · simp only [versionedModulePath, if_neg hv0, hparse, hnp]
      simp

/-- C10 witness: the theorem applied at the empty version and at a
commit-hash-like version. -/
theorem caddyBasePath_spec_witness :
    caddyBasePath "" = "github.com/caddyserver/caddy/v2" ∧
    resolveCoreModulePath "" = .ok "github.com/caddyserver/caddy/v2" ∧
    resolveCoreModulePath "a1b2c3d" = .ok "github.com/caddyserver/caddy/v2" :=
  ⟨caddyBasePath_spec.1 "" (Or.inl (by decide)),
    caddyBasePath_spec.2 "" (Or.inl (by decide)) (Or.inl rfl),
    caddyBasePath_spec.2 "a1b2c3d" (Or.inl (by decide))
      (Or.inr ⟨by decide, by decide⟩)⟩

/-! ## The process runner `environment.runCommand` (environment.go)

`runCommand` starts the subprocess, waits for it on a separate goroutine,
and selects over {command finished, context done}; on context
cancellation it waits a 15-second grace window for the process to exit by
itself before killing it, and in either sub-case returns `ctx.Err()`.
The concurrency is embedded by making the race outcomes explicit inputs:
the (abstract) time at which the subprocess exits, its own exit error, and
the time at which the context is cancelled, if ever.  A tie is resolved in
favour of the completed command (Go's `select` picks a ready case). -/

/-- The grace window granted after cancellation, in seconds
(`time.After(15 * time.Second)`). -/
def graceSeconds : Nat := 15

/-- The abstract world a single `runCommand` call runs in. -/
structure ProcWorld where
  /-- Error of `cmd.Start()`, if any. -/
  startErr : Option String
  /-- Time at which the subprocess exits on its own. -/
  exitTime : Nat
  /-- The subprocess's own exit error (`cmd.Wait()` result). -/
  exitErr : Option String
  /-- Time at which `ctx.Done()` fires, if ever. -/
  cancelTime : Option Nat
  /-- The value of `ctx.Err()` once cancelled. -/
  ctxErr : String
  deriving Repr, DecidableEq

/-- Result of a `runCommand` call: the returned error, and whether
`cmd.Process.Kill()` was invoked. -/
structure RunCmdResult where
  err : Option String
  killed : Bool
  deriving Repr, DecidableEq

/-- Model of `environment.runCommand` from environment.go over the abstract world:
a start failure is returned immediately; otherwise the outer `select`
returns the command's own error if it finishes before cancellation; on
cancellation first, the inner `select` waits out the grace window (kill on
expiry) and returns `ctx.Err()` in both sub-cases. -/
def runCommand (w : ProcWorld) : RunCmdResult :=
  match w.startErr with
  | some e => ⟨some e, false⟩
  | none =>
    match w.cancelTime with
    | none => ⟨w.exitErr, false⟩
    | some tc =>
      if w.exitTime ≤ tc then
        -- cmdErrChan won the outer select
        ⟨w.exitErr, false⟩
      else if w.exitTime ≤ tc + graceSeconds then
        -- ctx.Done first; the process exits within the grace window
        ⟨some w.ctxErr, false⟩
      else
        -- grace window expires; the process is killed
        ⟨some w.ctxErr, true⟩

/-! ### Claim C1: cancellation dominates the reported error -/

/--
C1: for every command whose context is cancelled (or reaches its deadline)
strictly before the subprocess exits, `runCommand` returns the context's
own cancellation error — both when the subprocess exits by itself within
the 15-second grace window (no kill) and when the grace window expires and
the process is forcibly killed — and never the subprocess's own exit
error.
-/
theorem runCommand_reports_ctx_err (w : ProcWorld) (tc : Nat)
    (hstart : w.startErr = none) (hcancel : w.cancelTime = some tc)
    (hrace : tc < w.exitTime) :
    (runCommand w).err = some w.ctxErr ∧
    ((runCommand w).killed = true ↔ tc + graceSeconds < w.exitTime) := by
  unfold runCommand
  rw [hstart, hcancel]
  simp only [if_neg (by omega : ¬ w.exitTime ≤ tc)]
  by_cases hg : w.exitTime ≤ tc + graceSeconds
  · rw [if_pos hg]
    exact ⟨rfl, by constructor <;> intro h <;> [exact absurd h (by simp); omega]⟩
  · rw [if_neg hg]
    exact ⟨rfl, by constructor <;> intro _ <;> [omega; rfl]⟩

/-- C1 witness: the theorem applied with a subprocess exiting inside the
grace window (second 10 after cancellation at second 2, no kill) and one
ignoring cancellation (exit at second 100, killed); both report the
context error `"context canceled"` and not the exit error. -/
theorem runCommand_reports_ctx_err_witness :
    (runCommand ⟨none, 10, some "exit status 1", some 2, "context canceled"⟩).err
      = some "context canceled" ∧
    (runCommand ⟨none, 10, some "exit status 1", some 2, "context canceled"⟩).killed
      = false ∧
    (runCommand ⟨none, 100, some "exit status 1", some 2, "context canceled"⟩).err
      = some "context canceled" ∧
    (runCommand ⟨none, 100, some "exit status 1", some 2, "context canceled"⟩).killed
      = true := by
  have h1 := runCommand_reports_ctx_err
    ⟨none, 10, some "exit status 1", some 2, "context canceled"⟩ 2 rfl rfl
    (by decide)
  have h2 := runCommand_reports_ctx_err
    ⟨none, 100, some "exit status 1", some 2, "context canceled"⟩ 2 rfl rfl
    (by decide)
  refine ⟨h1.1, ?_, h2.1, h2.2.mpr (by decide)⟩
  have := h1.2
  revert this
  decide

/-! ## The dependency model and the replaced-map (environment.go)

`newEnvironment` collapses the `Replacements` slice into a Go map
(`replaced[r.Old.String()] = r.New.String()`) before invoking a single
`go mod edit` carrying one `-replace` per key.  The map is modelled as an
association list with in-place overwrite; Go iterates map keys in an
unspecified order, the model keeps insertion order (no claim depends on
the iteration order). -/

/-- Struct `Dependency` from builder.go. -/
structure Dependency where
  packagePath : String
  version : String
  deriving Repr, DecidableEq

/-- Struct `Replace` from builder.go, with both `ReplacementPath`s already
rendered to strings (`r.Old.String()` / `r.New.String()`). -/
structure Replace where
  old : String
  new : String
  deriving Repr, DecidableEq

/-- Go map assignment `m[k] = v`: overwrite the entry if the key is
present, otherwise add it. -/
def mapInsert (m : List (String × String)) (k v : String) :
    List (String × String) :=
  if m.any (fun q => q.1 = k) then
    m.map (fun q => if q.1 = k then (k, v) else q)
  else m ++ [(k, v)]

/-- Go map lookup `m[k]`. -/
def mapLookup : List (String × String) → String → Option String
  | [], _ => none
  | q :: t, k => if q.1 = k then some q.2 else mapLookup t k

/-- The `replaced` map built by `newEnvironment` from the `Replacements`
slice, in slice order. -/
def buildReplaced (rs : List Replace) : List (String × String) :=
  rs.foldl (fun m r => mapInsert m r.old r.new) []

theorem mapLookup_map_self (v : String) :
    ∀ (m : List (String × String)) (k : String), m.any (fun q => q.1 = k) →
      mapLookup (m.map (fun q => if q.1 = k then (k, v) else q)) k = some v := by
  intro m
  induction m with
  | nil => intro k h; simp at h
  | cons q t ih =>
    intro k h
    by_cases hq : q.1 = k
    · simp [mapLookup, hq]
    · have ht : t.any (fun q => q.1 = k) := by
        simp [List.any_cons, hq] at h
        simp [List.any_eq_true]
        exact h
      simp only [List.map_cons, if_neg hq]
      rw [mapLookup, if_neg hq]
      exact ih k ht

theorem mapLookup_map_other (k' v : String) :
    ∀ (m : List (String × String)) (k : String), k' ≠ k →
      mapLookup (m.map (fun q => if q.1 = k' then (k', v) else q)) k =
        mapLookup m k := by
  intro m
  induction m with
  | nil => intro k _; rfl
  | cons q t ih =>
    intro k hne
    by_cases hq : q.1 = k'
    · simp only [List.map_cons, if_pos hq]
      rw [mapLookup, mapLookup, if_neg hne, if_neg (hq ▸ hne)]
      exact ih k hne
    · simp only [List.map_cons, if_neg hq]
      rw [mapLookup, mapLookup]
      by_cases hqk : q.1 = k
      · rw [if_pos hqk, if_pos hqk]
      · rw [if_neg hqk, if_neg hqk]
        exact ih k hne

theorem mapLookup_append_self (k v : String) :
    ∀ m : List (String × String),
      mapLookup (m ++ [(k, v)]) k = some v ∨
      (∃ u, mapLookup m k = some u ∧ mapLookup (m ++ [(k, v)]) k = some u) := by
  intro m
  induction m with
  | nil => left; simp [mapLookup]
  | cons q t ih =>
    by_cases hq : q.1 = k
    · right
      exact ⟨q.2, by rw [mapLookup, if_pos hq], by
        rw [List.cons_append, mapLookup, if_pos hq]⟩
    · rcases ih with h | ⟨u, hu1, hu2⟩
      · left
        rw [List.cons_append, mapLookup, if_neg hq]
        exact h
      · right
        exact ⟨u, by rw [mapLookup, if_neg hq]; exact hu1, by
          rw [List.cons_append, mapLookup, if_neg hq]; exact hu2⟩

theorem mapLookup_append_no_key (k v : String) :
    ∀ m : List (String × String), ¬ m.any (fun q => q.1 = k) →
      mapLookup (m ++ [(k, v)]) k = some v := by
  intro m
  induction m with
  | nil => intro _; simp [mapLookup]
  | cons q t ih =>
    intro h
    simp only [List.any_cons, Bool.or_eq_true, not_or] at h
    have hq : q.1 ≠ k := by
      intro he
      exact h.1 (by simp [he])
    rw [List.cons_append, mapLookup, if_neg hq]
    exact ih (by simpa using h.2)

theorem mapLookup_append_other (k' v : String) :
    ∀ (m : List (String × String)) (k : String), k' ≠ k →
      mapLookup (m ++ [(k', v)]) k = mapLookup m k := by
  intro m
  induction m with
  | nil => intro k hne; simp [mapLookup, hne]
  | cons q t ih =>
    intro k hne
    rw [List.cons_append, mapLookup, mapLookup]
    by_cases hq : q.1 = k
    · rw [if_pos hq, if_pos hq]
    · rw [if_neg hq, if_neg hq]
      exact ih k hne

theorem mapInsert_lookup_self (m : List (String × String)) (k v : String) :
    mapLookup (mapInsert m k v) k = some v := by
  unfold mapInsert
  split
  · exact mapLookup_map_self v m k (by assumption)
  · exact mapLookup_append_no_key k v m (by simp_all)

theorem mapInsert_lookup_other (m : List (String × String)) (k' v k : String)
    (hne : k' ≠ k) : mapLookup (mapInsert m k' v) k = mapLookup m k := by
  unfold mapInsert
  split
  · exact mapLookup_map_other k' v m k hne
  · exact mapLookup_append_other k' v m k hne

/-! ### Claim C5: later replacements for the same old path win -/

/--
C5: looking up any old path in the collapsed `replaced` map yields the
`new` of the **last** `Replace` entry with that old path; earlier values
for a duplicate key are silently dropped.  In particular, applying
`Replace{old:"A", new:"X"}` then `Replace{old:"A", new:"Y"}` leaves only
`"Y"`.
-/
theorem getLast?_cons_ne_none {α : Type} (a : α) :
    ∀ l : List α, (a :: l).getLast? ≠ none := by
  intro l
  induction l generalizing a with
  | nil => simp
  | cons b t ih => rw [List.getLast?_cons_cons]; exact ih b

theorem buildReplaced_last_wins (rs : List Replace) (k : String) :
    mapLookup (buildReplaced rs) k =
      ((rs.filter (fun r => r.old = k)).getLast?).map (fun r => r.new) := by
  suffices h : ∀ (rs : List Replace) (m : List (String × String)),
      mapLookup (rs.foldl (fun m r => mapInsert m r.old r.new) m) k =
        match (rs.filter (fun r => r.old = k)).getLast? with
        | some r => some r.new
        | none => mapLookup m k by
    have h2 := h rs []
    rw [buildReplaced, h2]
    cases (rs.filter (fun r => r.old = k)).getLast? <;> simp [mapLookup]
  intro rs
  induction rs with
  | nil => intro m; simp [mapLookup]
  | cons r t ih =>
    intro m
    rw [List.foldl_cons, ih (mapInsert m r.old r.new)]
    by_cases hr : r.old = k
    · rw [List.filter_cons_of_pos (by simp [hr])]
      cases hft : t.filter (fun r => r.old = k) with
      | nil =>
        subst hr
        simp [mapInsert_lookup_self]
      | cons b bs =>
        rw [List.getLast?_cons_cons]
        cases hgl : (b :: bs).getLast? with
        | none => exact absurd hgl (getLast?_cons_ne_none b bs)
        | some x => rfl
    · rw [List.filter_cons_of_neg (by simp [hr])]
      cases hft : t.filter (fun r => r.old = k) with
      | nil => simp [mapInsert_lookup_other m r.old r.new k hr]
      | cons b bs =>
        cases hgl : (b :: bs).getLast? with
        | none => exact absurd hgl (getLast?_cons_ne_none b bs)
        | some x => rfl

/-! ## Build-environment setup `Builder.newEnvironment` (environment.go)

The setup sequence is modelled as an executable function over an abstract
`SetupWorld` that decides the outcome of every external effect: whether
temp-folder creation fails, whether writing `main.go` fails, whether one of
the embed-directory steps fails, which external toolchain command (by
execution index) fails, and after how many completed commands the
cancellation context is observed done at the explicit `select`/`ctx.Done()`
checks.  The template render steps cannot fail (the templates are
constants) and happen before the temporary folder is created, as in the
source.  The result records the toolchain operations issued on the
successful path, whether the temporary directory was created, and whether
it was removed by the deferred cleanup.  That cleanup
(`if err != nil { os.RemoveAll(tempFolder) }`) inspects the
*function-scope* `err` variable, and not every failing return path
assigns it: the replacement `go mod edit` failure is bound by a shadowed
`err :=` inside the `if len(replaced) > 0` block, and the two early-abort
paths return `nil, ctx.Err()` without touching `err` — on those paths the
directory is left on disk; `skipCleanup` is never consulted here. -/

/-- An entry of `Builder.EmbedDirs`. -/
structure EmbedDir where
  dir : String
  name : String
  deriving Repr, DecidableEq

/-- The fields of `Builder` that `newEnvironment` reads. -/
structure Builder where
  caddyVersion : String
  plugins : List Dependency
  replacements : List Replace
  skipCleanup : Bool
  embedDirs : List EmbedDir
  deriving Repr, DecidableEq

/-- The fields of the `environment` struct that later steps read. -/
structure Environment where
  caddyVersion : String
  plugins : List Dependency
  caddyModulePath : String
  skipCleanup : Bool
  deriving Repr, DecidableEq

/-- A toolchain operation issued by `newEnvironment`: `go mod init caddy`,
a single `go mod edit` carrying one `-replace old=new` per collapsed map
entry, or `go get -d -v mod[@ver] [caddy[@ver]]` (`execGoGet`'s four
arguments). -/
inductive Op
  | modInit
  | modEditReplace (pairs : List (String × String))
  | goGet (modPath modVer caddyPath caddyVer : String)
  deriving Repr, DecidableEq

/-- The step of `newEnvironment` at which a failure occurred.  Serves as
the model's error value and decides whether the deferred cleanup fires. -/
inductive SetupStep
  | resolveVersion
  | tempFolder
  | writeMain
  | embedDir
  | modInit
  | editReplace
  | ctxAbort
  | goGetCore
  | goGetPlugin
  | goGetFinal
  deriving Repr, DecidableEq

/-- Whether the function-scope `err` variable holds the error when
`newEnvironment` returns from a failure at the given step — i.e. whether
the deferred `if err != nil { os.RemoveAll(tempFolder) }` fires.  The
`go mod edit` failure is bound by a shadowed `err :=` inside the
`if len(replaced) > 0` block, and the two `ctx.Done()` early aborts
return `nil, ctx.Err()` without assigning `err`, so on those paths the
defer sees `err == nil`; every other failing step assigns the
function-scope `err` (`err = …`) before returning. -/
def errVarAssigned : SetupStep → Bool
  | .editReplace => false
  | .ctxAbort => false
  | _ => true

/-- The abstract world `newEnvironment` runs in. -/
structure SetupWorld where
  /-- Whether `newTempFolder()` fails. -/
  tempFolderErr : Bool
  /-- Whether `os.WriteFile(mainPath, …)` fails. -/
  writeMainErr : Bool
  /-- Index of an embed-directory step that fails, if any (only meaningful
  below `embedDirs.length`). -/
  embedFailAt : Option Nat
  /-- Outcome of the k-th executed toolchain command (`true` = non-zero
  exit); missing entries succeed. -/
  cmdFails : List Bool
  /-- The context is observed done once at least this many commands have
  completed (`none` = never cancelled). -/
  ctxDoneAt : Option Nat
  deriving Repr, DecidableEq

/-- Whether the k-th executed command fails. -/
def cmdFailsAt (w : SetupWorld) (k : Nat) : Bool := w.cmdFails.getD k false

/-- Whether the context is observed done after `k` completed commands. -/
def ctxDone (w : SetupWorld) (k : Nat) : Bool :=
  match w.ctxDoneAt with
  | some t => t ≤ k
  | none => false

/-- Run one toolchain command: on success the command counter advances and
the operation is recorded. -/
def runCmdStep (w : SetupWorld) (st : Nat × List Op) (op : Op) :
    Except String (Nat × List Op) :=
  if cmdFailsAt w st.1 then .error "command failed"
  else .ok (st.1 + 1, st.2 ++ [op])

/-- The non-blocking `select { case <-ctx.Done(): return nil, ctx.Err() }`
check. -/
def ctxCheck (w : SetupWorld) (st : Nat × List Op) :
    Except String (Nat × List Op) :=
  if ctxDone w st.1 then .error "context canceled" else .ok st

/-- The embed-directory loop: copies and template writes, abstracted to a
single failure point. -/
def embedStep (w : SetupWorld) (dirs : List EmbedDir) : Except String Unit :=
  match w.embedFailAt with
  | some i => if i < dirs.length then .error "embed" else .ok ()
  | none => .ok ()

/-- Apply `versionedModulePath` to every plugin in order
(the "clean up any SIV-incompatible module paths" loop). -/
def resolvePlugins : List Dependency → Except VmpErr (List Dependency)
  | [] => .ok []
  | p :: rest =>
    match versionedModulePath p.packagePath p.version with
    | .error e => .error e
    | .ok newPath =>
      match resolvePlugins rest with
      | .error e => .error e
      | .ok rest2 => .ok ({ packagePath := newPath, version := p.version } :: rest2)

/-- The plugin-pinning loop (`nextPlugin:` in the source): skip a plugin
when some replaced old path is a prefix of its package path; otherwise
`go get` it (also passing the Caddy module/version) and re-check the
context. -/
def pluginLoop (w : SetupWorld) (replacedKeys : List String)
    (caddyMP caddyVer : String) :
    List Dependency → Nat × List Op → Except SetupStep (Nat × List Op)
  | [], st => .ok st
  | p :: rest, st =>
    if replacedKeys.any (fun repl => strHasPre p.packagePath repl) then
      pluginLoop w replacedKeys caddyMP caddyVer rest st
    else
      match runCmdStep w st (.goGet p.packagePath p.version caddyMP caddyVer) with
      | .error _ => .error .goGetPlugin
      | .ok st1 =>
        match ctxCheck w st1 with
        | .error _ => .error .ctxAbort
        | .ok st2 => pluginLoop w replacedKeys caddyMP caddyVer rest st2

/-- Everything `newEnvironment` does after the temporary folder exists:
write `main.go`, process embed directories, `go mod init caddy`, one
`go mod edit` with all collapsed replacements (if any), context check,
`go get` the core module, the plugin loop, and a final empty `go get`. -/
def newEnvAfterTemp (b : Builder) (w : SetupWorld) (caddyMP : String)
    (plugins : List Dependency) : Except SetupStep (Environment × List Op) :=
  if w.writeMainErr then .error .writeMain
  else
    match embedStep w b.embedDirs with
    | .error _ => .error .embedDir
    | .ok _ =>
      match runCmdStep w (0, []) .modInit with
      | .error _ => .error .modInit
      | .ok st1 =>
        match (if (buildReplaced b.replacements).isEmpty then .ok st1
               else runCmdStep w st1
                 (.modEditReplace (buildReplaced b.replacements))) with
        | .error _ => .error .editReplace
        | .ok st2 =>
          match ctxCheck w st2 with
          | .error _ => .error .ctxAbort
          | .ok st3 =>
            match runCmdStep w st3 (.goGet caddyMP b.caddyVersion "" "") with
            | .error _ => .error .goGetCore
            | .ok st4 =>
              match pluginLoop w ((buildReplaced b.replacements).map (·.1))
                  caddyMP b.caddyVersion plugins st4 with
              | .error s => .error s
              | .ok st5 =>
                match runCmdStep w st5 (.goGet "" "" "" "") with
                | .error _ => .error .goGetFinal
                | .ok st6 =>
                  .ok (⟨b.caddyVersion, plugins, caddyMP, b.skipCleanup⟩, st6.2)

/-- The overall result of a `newEnvironment` run. -/
structure SetupResult where
  /-- The environment on success, or the step that failed. -/
  result : Except SetupStep Environment
  /-- The toolchain operations issued, in order, when setup succeeds
  (`[]` on failure). -/
  ops : List Op
  /-- Whether the temporary folder was created. -/
  dirCreated : Bool
  /-- Whether the deferred cleanup removed the temporary folder. -/
  dirRemoved : Bool
  deriving Repr

/-- Model of `Builder.newEnvironment` from environment.go: resolve the core module
path (`caddyBasePath` + `versionedModulePath`), resolve every plugin path,
render the template (cannot fail), create the temporary folder, and run
the post-creation sequence.  On a post-creation failure the deferred
cleanup removes the folder exactly when the function-scope `err` variable
holds the error at return (`errVarAssigned`): every failing step assigns
it with `err = …` except the replacement `go mod edit` (shadowed
`err :=`) and the `ctx.Done()` early aborts (`return nil, ctx.Err()`),
after which the folder is left on disk.  `skipCleanup` is never consulted
on the failure path. -/
def newEnvironment (b : Builder) (w : SetupWorld) : SetupResult :=
  match resolveCoreModulePath b.caddyVersion with
  | .error _ => ⟨.error .resolveVersion, [], false, false⟩
  | .ok caddyMP =>
    match resolvePlugins b.plugins with
    | .error _ => ⟨.error .resolveVersion, [], false, false⟩
    | .ok plugins =>
      if w.tempFolderErr then ⟨.error .tempFolder, [], false, false⟩
      else
        match newEnvAfterTemp b w caddyMP plugins with
        | .error s => ⟨.error s, [], true, errVarAssigned s⟩
        | .ok (env, ops) => ⟨.ok env, ops, true, false⟩

/-- Model of `environment.Close` from environment.go: leaves the folder on disk
when `skipCleanup` is set, otherwise removes it.  Returns whether the
temporary folder still exists afterwards. -/
def closeEnv (env : Environment) (dirExists : Bool) : Bool :=
  if env.skipCleanup then dirExists else false

/-! ### Claim C2: which setup failures remove the temporary directory -/

/--
C2 counterexample.  The claim states that on a setup failure at manifest
writing, module init, replacement application, or any dependency-pinning
step, the temporary directory is removed — unless skip-cleanup was
requested.  Both parts fail on the source:
(i) with `SkipCleanup = true` and `go mod init` failing, the directory is
removed anyway — the deferred cleanup runs `os.RemoveAll(tempFolder)`
without consulting `SkipCleanup` (that flag is honored only by
`environment.Close`, after a *successful* setup); and
(ii) with a failure at replacement application (the `go mod edit`
command), the directory is *not* removed: that error is bound by a
shadowed `err :=` inside the `if len(replaced) > 0` block, so the
deferred `if err != nil` check sees `nil` and never fires.
-/
theorem newEnvironment_cleanup_counterexample :
    (newEnvironment ⟨"", [], [], true, []⟩
      ⟨false, false, none, [true], none⟩).dirCreated = true ∧
    (newEnvironment ⟨"", [], [], true, []⟩
      ⟨false, false, none, [true], none⟩).result = .error .modInit ∧
    (Builder.mk "" [] [] true []).skipCleanup = true ∧
    (newEnvironment ⟨"", [], [], true, []⟩
      ⟨false, false, none, [true], none⟩).dirRemoved = true ∧
    (newEnvironment ⟨"", [], [⟨"a", "b"⟩], false, []⟩
      ⟨false, false, none, [false, true], none⟩).dirCreated = true ∧
    (newEnvironment ⟨"", [], [⟨"a", "b"⟩], false, []⟩
      ⟨false, false, none, [false, true], none⟩).result = .error .editReplace ∧
    (newEnvironment ⟨"", [], [⟨"a", "b"⟩], false, []⟩
      ⟨false, false, none, [false, true], none⟩).dirRemoved = false :=
  ⟨rfl, rfl, rfl, rfl, rfl, rfl, rfl⟩

/--
C2 amended: when `newEnvironment` fails after the temporary directory has
been created, the deferred cleanup removes the directory **iff** the
failing step assigns the function-scope `err` variable — i.e. at manifest
writing, embed processing, module init, and every `go get` pinning
command — and this never depends on the skip-cleanup flag.  It does *not*
remove the directory when the failure is the replacement-application
`go mod edit` (whose error lands in a shadowed `err :=`) or one of the
`ctx.Done()` early aborts (which return `ctx.Err()` without assigning
`err`): on those paths the temporary directory is left behind.
-/
theorem newEnvironment_cleanup_on_failure (b : Builder) (w : SetupWorld)
    (s : SetupStep)
    (hc : (newEnvironment b w).dirCreated = true)
    (he : (newEnvironment b w).result = .error s) :
    ((newEnvironment b w).dirRemoved = true ↔
      (s ≠ SetupStep.editReplace ∧ s ≠ SetupStep.ctxAbort)) := by
  unfold newEnvironment at hc he ⊢
  cases hr : resolveCoreModulePath b.caddyVersion with
  | error e1 => simp only [hr] at hc; simp at hc
  | ok caddyMP =>
    simp only [hr] at hc he ⊢
    cases hp : resolvePlugins b.plugins with
    | error e2 => simp only [hp] at hc; simp at hc
    | ok plugins =>
      simp only [hp] at hc he ⊢
      by_cases ht : w.tempFolderErr
      · rw [if_pos ht] at hc; simp at hc
      · rw [if_neg ht] at he ⊢
        cases ha : newEnvAfterTemp b w caddyMP plugins with
        | error s2 =>
          simp only [ha] at he ⊢
          have hs : s2 = s := by simpa using he
          subst hs
          cases s2 <;> simp [errVarAssigned]
        | ok pr =>
          obtain ⟨env, ops⟩ := pr
          simp only [ha] at he
          simp at he

/-- C2 witness: the amended theorem applied to a run whose `main.go`
write fails — that step assigns `err`, so the directory is removed. -/
theorem newEnvironment_cleanup_on_failure_witness :
    (newEnvironment ⟨"", [], [], false, []⟩
      ⟨false, true, none, [], none⟩).dirRemoved = true :=
  (newEnvironment_cleanup_on_failure ⟨"", [], [], false, []⟩
    ⟨false, true, none, [], none⟩ .writeMain rfl rfl).mpr
    ⟨by decide, by decide⟩

/-! ### Claim C3: the order of toolchain operations -/

/-- The world in which every external effect succeeds and the context is
never cancelled. -/
def allOkWorld : SetupWorld := ⟨false, false, none, [], none⟩

theorem cmdFailsAt_allOk (k : Nat) : cmdFailsAt allOkWorld k = false := by
  unfold cmdFailsAt allOkWorld
  cases k <;> rfl

theorem ctxDone_allOk (k : Nat) : ctxDone allOkWorld k = false := rfl

theorem runCmdStep_allOk (st : Nat × List Op) (op : Op) :
    runCmdStep allOkWorld st op = .ok (st.1 + 1, st.2 ++ [op]) := by
  unfold runCmdStep
  rw [cmdFailsAt_allOk, if_neg (by simp)]

theorem ctxCheck_allOk (st : Nat × List Op) :
    ctxCheck allOkWorld st = .ok st := rfl

/-- In the all-success world the plugin loop issues exactly one `go get`
per non-skipped plugin, in input order. -/
theorem pluginLoop_allOk (keys : List String) (caddyMP caddyVer : String) :
    ∀ (ps : List Dependency) (st : Nat × List Op),
      pluginLoop allOkWorld keys caddyMP caddyVer ps st =
        .ok (st.1 +
            (ps.filter (fun p =>
              !keys.any (fun repl => strHasPre p.packagePath repl))).length,
          st.2 ++
            (ps.filter (fun p =>
              !keys.any (fun repl => strHasPre p.packagePath repl))).map
              (fun p => Op.goGet p.packagePath p.version caddyMP caddyVer)) := by
  intro ps
  induction ps with
  | nil => intro st; simp [pluginLoop]
  | cons p rest ih =>
    intro st
    by_cases hskip : keys.any (fun repl => strHasPre p.packagePath repl)
    · rw [pluginLoop, if_pos hskip, ih st,
        List.filter_cons_of_neg (by simp [hskip])]
    · rw [pluginLoop, if_neg hskip]
      simp only [runCmdStep_allOk, ctxCheck_allOk]
      rw [ih (st.1 + 1, st.2 ++ [Op.goGet p.packagePath p.version caddyMP caddyVer]),
        List.filter_cons_of_pos (by simp [hskip])]
      simp
      omega

/--
C3: for every build configuration whose module paths resolve, the sequence
of toolchain operations issued during environment setup is: module init
first; then a single `go mod edit` applying every (collapsed) replacement
directive — present exactly when there are replacements — before any
version pinning; then the core module's version is pinned; then each
plugin is pinned in caller-supplied input order, where every plugin whose
package path has a replaced old path as a prefix is skipped and never
independently pinned; and finally the empty `go get`.
-/
theorem newEnvironment_op_order (b : Builder) (caddyMP : String)
    (ps : List Dependency)
    (hres : resolveCoreModulePath b.caddyVersion = .ok caddyMP)
    (hps : resolvePlugins b.plugins = .ok ps) :
    (newEnvironment b allOkWorld).ops =
      [Op.modInit]
      ++ (if (buildReplaced b.replacements).isEmpty then []
          else [Op.modEditReplace (buildReplaced b.replacements)])
      ++ [Op.goGet caddyMP b.caddyVersion "" ""]
      ++ (ps.filter (fun p =>
            !((buildReplaced b.replacements).map (·.1)).any
              (fun repl => strHasPre p.packagePath repl))).map
          (fun p => Op.goGet p.packagePath p.version caddyMP b.caddyVersion)
      ++ [Op.goGet "" "" "" ""] := by
  unfold newEnvironment
  simp only [hres, hps]
  rw [if_neg (show ¬ allOkWorld.tempFolderErr = true by decide)]
  unfold newEnvAfterTemp
  rw [if_neg (show ¬ allOkWorld.writeMainErr = true by decide)]
  simp only [show embedStep allOkWorld b.embedDirs = .ok () from rfl]
  simp only [runCmdStep_allOk, ctxCheck_allOk, pluginLoop_allOk]
  by_cases hrep : (buildReplaced b.replacements).isEmpty
  · simp only [if_pos hrep]
    simp [hrep]
  · simp only [if_neg hrep]
    simp [hrep]

/-- C3 witness: a two-plugin configuration with one replacement; the
plugin nested inside the replaced module (`foo/a/plugin` under `foo/a`) is
never pinned, replacements precede all pinning, the core is pinned first
and the remaining plugin afterwards. -/
theorem newEnvironment_op_order_witness :
    (newEnvironment
      ⟨"v2.0.0",
        [⟨"example.org/plugin", "v1.0.0"⟩, ⟨"foo/a/plugin", ""⟩],
        [⟨"foo/a", "/home/user/a"⟩], false, []⟩ allOkWorld).ops =
      [Op.modInit,
        Op.modEditReplace [("foo/a", "/home/user/a")],
        Op.goGet "github.com/caddyserver/caddy/v2" "v2.0.0" "" "",
        Op.goGet "example.org/plugin" "v1.0.0"
          "github.com/caddyserver/caddy/v2" "v2.0.0",
        Op.goGet "" "" "" ""] := by
  have h := newEnvironment_op_order
    ⟨"v2.0.0",
      [⟨"example.org/plugin", "v1.0.0"⟩, ⟨"foo/a/plugin", ""⟩],
      [⟨"foo/a", "/home/user/a"⟩], false, []⟩
    "github.com/caddyserver/caddy/v2"
    [⟨"example.org/plugin", "v1.0.0"⟩, ⟨"foo/a/plugin", ""⟩]
    rfl rfl
  rw [h]
  decide

end Xcaddy
